import Mathlib

/-!
The clFFT plan cache of the OpenCL backend.

A shallow embedding of `src/backend/opencl/fft.cpp`: the plan cache
`clFFTPlanner`, the key construction and lookup of `find_clfft_plan`, the
length test `isSupLen`, and the transform entry points `fft_inplace`,
`fft_r2c` and `fft_c2r`.

Conventions of the embedding.

* `std::deque<FFTPlanPair>` is a `List`, the head of the list being the front
  of the deque.
* `size_t` values are natural numbers, `dim_t` and `int` values are integers;
  conversions between machine types are written out (`toSizeT`, `wrapInt32`).
* The clFFT library is outside the sources.  Every call into it is recorded in
  a log (`Process.calls`, oldest call first) and is taken to report success,
  so that `CLFFT_CHECK` never raises.  The handle written by
  `clfftCreateDefaultPlan` is given by `Engine.newPlan`.
* `clFFTPlanner::getInstance()` is the planner of the active device; it is the
  `planner` field of `Process`.
-/

namespace opencl

/-! ## Machine integers -/

/-- Conversion of an integer value to `int` (32 bits, two's complement). -/
def wrapInt32 (v : Int) : Int := (v + 2 ^ 31) % 2 ^ 32 - 2 ^ 31

/-- Conversion of an integer value to `size_t` (64 bits, unsigned). -/
def toSizeT (v : Int) : Nat := (v % 2 ^ 64).toNat

/-! ## Data model -/

/-- The type `clfftPlanHandle` of clFFT.h, an integral handle. -/
abbrev clfftPlanHandle := Nat

/-- The pair `std::pair<string, clfftPlanHandle>`. -/
abbrev FFTPlanPair := String × clfftPlanHandle

/-- The deque `std::deque<FFTPlanPair>`; the head of the list is the front. -/
abbrev FFTPlanCache := List FFTPlanPair

/-- Calls into the clFFT library, with the arguments the cache logic decides. -/
inductive ExtCall where
  | clfftInitSetupData
  | clfftSetup
  | clfftTeardown
  | clfftDestroyPlan (plan : clfftPlanHandle)
  | clfftCreateDefaultPlan (rank : Nat) (clLengths : List Nat)
  | clfftSetResultLocation (plan : clfftPlanHandle) (inplace : Bool)
  | clfftSetLayout (plan : clfftPlanHandle) (iLayout oLayout : Int)
  | clfftSetPlanBatchSize (plan : clfftPlanHandle) (batch : Nat)
  | clfftSetPlanDistance (plan : clfftPlanHandle) (idist odist : Nat)
  | clfftSetPlanInStride (plan : clfftPlanHandle) (rank : Nat) (strides : Option (List Nat))
  | clfftSetPlanOutStride (plan : clfftPlanHandle) (rank : Nat) (strides : Option (List Nat))
  | clfftSetPlanPrecision (plan : clfftPlanHandle) (precision : Int)
  | clfftSetPlanScale (plan : clfftPlanHandle)
  | clfftBakePlan (plan : clfftPlanHandle)
  | clfftEnqueueTransform (plan : clfftPlanHandle) (forward : Bool) (imem omem : Nat)
  deriving DecidableEq, Repr

/-- The data members of `clFFTPlanner` that the cache logic uses. -/
structure clFFTPlanner where
  mMaxCacheSize : Nat
  mCache : FFTPlanCache
  deriving DecidableEq, Repr

/-- The planner of the active device together with the log of clFFT calls. -/
structure Process where
  planner : clFFTPlanner
  calls : List ExtCall
  deriving DecidableEq, Repr

/-- The class `af::dim4`: four `dim_t` values. -/
structure dim4 where
  d0 : Int
  d1 : Int
  d2 : Int
  d3 : Int
  deriving DecidableEq, Repr

/-- The subscript `dims[i]`; the instantiated ranks only use `i < 4`. -/
def dim4.get (d : dim4) (i : Nat) : Int :=
  match i with
  | 0 => d.d0
  | 1 => d.d1
  | 2 => d.d2
  | _ => d.d3

/-- The part of `Array<T>` the transforms read: shape, strides and the device buffer. -/
structure Array where
  dims : dim4
  strides : dim4
  mem : Nat
  deriving DecidableEq, Repr

/-- The element types the transforms are instantiated with. -/
inductive ElemType where
  | cfloat
  | cdouble
  deriving DecidableEq, Repr

/-- What the sources take from outside: the handle a plan creation writes (it may
depend on the calls made so far), the array allocator, and the enumerators of
clFFT.h that the entry points name. -/
structure Engine where
  newPlan : List ExtCall → clfftPlanHandle
  createEmptyArray : dim4 → Array
  CLFFT_COMPLEX_INTERLEAVED : Int
  CLFFT_HERMITIAN_INTERLEAVED : Int
  CLFFT_REAL : Int
  CLFFT_SINGLE : Int
  CLFFT_DOUBLE : Int

/-- The arguments of `find_clfft_plan` other than the result reference.  An array
argument is the function reading it by index; a null pointer is `none`. -/
structure PlanArgs where
  iLayout : Int
  oLayout : Int
  rank : Nat
  clLengths : Nat → Nat
  istrides : Option (Nat → Nat)
  idist : Nat
  ostrides : Option (Nat → Nat)
  odist : Nat
  precision : Int
  batch : Nat

/-! ## clFFTPlanner -/

/-- The member `std::deque::resize(n, value)`: keeps the first `n` elements, or
appends copies of `value` at the back up to `n` elements. -/
def dequeResize {α : Type} (c : List α) (n : Nat) (value : α) : List α :=
  c.take n ++ List.replicate (n - c.length) value

/-- The constructor: `mMaxCacheSize(5)`, an empty deque, and the library setup. -/
def clFFTPlanner.construct (calls : List ExtCall) : Process :=
  { planner := { mMaxCacheSize := 5, mCache := [] },
    calls := calls ++ [ExtCall.clfftInitSetupData, ExtCall.clfftSetup] }

/-- The destructor.  `OS_WIN` is the build flag, `flag` the function-local static;
the result is the new value of `flag` and the call log. -/
def clFFTPlanner.destruct (OS_WIN : Bool) (flag : Bool) (s : Process) : Bool × List ExtCall :=
  if OS_WIN then (flag, s.calls)
  else if flag then (false, s.calls ++ [ExtCall.clfftTeardown])
  else (flag, s.calls)

def setMaxCacheSize (p : clFFTPlanner) (size : Nat) : clFFTPlanner :=
  { p with mCache := dequeResize p.mCache size ("", 0) }

def getMaxCacheSize (p : clFFTPlanner) : Nat := p.mMaxCacheSize

/-- The member `getPlan(int index)`: `mCache[index].second`; no value outside the deque. -/
def getPlan (p : clFFTPlanner) (index : Int) : Option clfftPlanHandle :=
  if 0 ≤ index then (p.mCache.get? index.toNat).map Prod.snd else none

/-- The scan of `findIfPlanExists` over the entries from index `i` on; `retVal = i`
converts the `uint` counter to `int`. -/
def findIfPlanExistsLoop (keyString : String) : FFTPlanCache → Nat → Int → Int
  | [], _, retVal => retVal
  | e :: rest, i, retVal =>
    findIfPlanExistsLoop keyString rest (i + 1)
      (if keyString = e.1 then wrapInt32 (i : Int) else retVal)

/-- The member `findIfPlanExists`.  The counter is a 32-bit `uint`: with `2 ^ 32` or
more entries it wraps before reaching `mCache.size()` and the scan does not end,
which is the result `none`. -/
def findIfPlanExists (p : clFFTPlanner) (keyString : String) : Option Int :=
  if p.mCache.length < 2 ^ 32 then some (findIfPlanExistsLoop keyString p.mCache 0 (-1))
  else none

def popPlan (s : Process) : Process :=
  match s.planner.mCache.getLast? with
  | some back =>
    { planner := { s.planner with mCache := s.planner.mCache.dropLast },
      calls := s.calls ++ [ExtCall.clfftDestroyPlan back.2] }
  | none => s

def pushPlan (s : Process) (keyString : String) (plan : clfftPlanHandle) : Process :=
  let s1 := if s.planner.mCache.length > s.planner.mMaxCacheSize then popPlan s else s
  { s1 with planner := { s1.planner with mCache := (keyString, plan) :: s1.planner.mCache } }

/-- A run of `pushPlan` calls, first element first. -/
def pushPlans (s : Process) (entries : List FFTPlanPair) : Process :=
  entries.foldl (fun acc e => pushPlan acc e.1 e.2) s

/-! ## find_clfft_plan -/

/-- The conversion `%d` of `sprintf`. -/
def fmtInt (v : Int) : String :=
  match v with
  | Int.ofNat m => Nat.repr m
  | Int.negSucc m => "-" ++ Nat.repr (m + 1)

/-- Modelled from the spec: `SIZE_T_FRMT_SPECIFIER` is defined outside these sources;
it is the `sprintf` conversion that renders a `size_t` as a decimal numeral. -/
def fmtSizeT (v : Nat) : String := Nat.repr v

/-- One of the loops `for (int r = 0; r < rank; ++r)` appending `arr[r]` and a colon. -/
def appendFields (key_string : String) (rank : Nat) (arr : Nat → Nat) : String :=
  (List.range rank).foldl (fun k r => k ++ (fmtSizeT (arr r) ++ ":")) key_string

/-- The key string that `find_clfft_plan` builds from its arguments. -/
def key_string (a : PlanArgs) : String :=
  let k0 := fmtInt a.iLayout ++ ":" ++ fmtInt a.oLayout ++ ":" ++ fmtInt (a.rank : Int) ++ ":"
  let k1 := appendFields k0 a.rank a.clLengths
  let k2 := match a.istrides with
    | some istrides => appendFields k1 a.rank istrides ++ (fmtSizeT a.idist ++ ":")
    | none => k1
  let k3 := match a.ostrides with
    | some ostrides => appendFields k2 a.rank ostrides ++ (fmtSizeT a.odist ++ ":")
    | none => k2
  k3 ++ (fmtInt a.precision ++ ":" ++ fmtSizeT a.batch)

/-- The first `rank` elements of an array argument. -/
def firstN (rank : Nat) (arr : Nat → Nat) : List Nat := (List.range rank).map arr

/-- The clFFT calls of `find_clfft_plan` that create, configure and bake the plan `temp`. -/
def creationCalls (a : PlanArgs) (temp : clfftPlanHandle) : List ExtCall :=
  [ ExtCall.clfftCreateDefaultPlan a.rank (firstN a.rank a.clLengths),
    ExtCall.clfftSetResultLocation temp (decide (a.iLayout = a.oLayout)),
    ExtCall.clfftSetLayout temp a.iLayout a.oLayout,
    ExtCall.clfftSetPlanBatchSize temp a.batch,
    ExtCall.clfftSetPlanDistance temp a.idist a.odist,
    ExtCall.clfftSetPlanInStride temp a.rank (a.istrides.map (firstN a.rank)),
    ExtCall.clfftSetPlanOutStride temp a.rank (a.ostrides.map (firstN a.rank)),
    ExtCall.clfftSetPlanPrecision temp a.precision,
    ExtCall.clfftSetPlanScale temp,
    ExtCall.clfftBakePlan temp ]

/-- The function `find_clfft_plan`: the plan written to `plan` and the new state.
There is no result (`none`) when the lookup does not end or `getPlan` is applied
outside the deque. -/
def find_clfft_plan (ext : Engine) (a : PlanArgs) (s : Process) :
    Option (clfftPlanHandle × Process) :=
  match findIfPlanExists s.planner (key_string a) with
  | none => none
  | some planIndex =>
    if planIndex ≠ -1 then
      (getPlan s.planner planIndex).map (fun plan => (plan, s))
    else
      let temp := ext.newPlan s.calls
      let s1 : Process := { s with calls := s.calls ++ creationCalls a temp }
      some (temp, pushPlan s1 (key_string a) temp)

def setFFTPlanCacheSize (s : Process) (numPlans : Nat) : Process :=
  { s with planner := setMaxCacheSize s.planner numPlans }

/-! ## Supported lengths and the transform entry points -/

def Precision (ext : Engine) (T : ElemType) : Int :=
  match T with
  | ElemType.cfloat => ext.CLFFT_SINGLE
  | ElemType.cdouble => ext.CLFFT_DOUBLE

def computeDims (idims : dim4) : Nat → Nat := fun i => toSizeT (idims.get i)

/-- The loop of `isSupLen` run for at most `fuel` iterations; `none` when the
iterations do not suffice.  The operators `%` and `/` of C++ truncate. -/
def isSupLenLoop : Nat → Int → Option Bool
  | 0, length => if length > 1 then none else some true
  | fuel + 1, length =>
    if length > 1 then
      if length.tmod 2 = 0 then isSupLenLoop fuel (length.tdiv 2)
      else if length.tmod 3 = 0 then isSupLenLoop fuel (length.tdiv 3)
      else if length.tmod 5 = 0 then isSupLenLoop fuel (length.tdiv 5)
      else if length.tmod 7 = 0 then isSupLenLoop fuel (length.tdiv 7)
      else if length.tmod 11 = 0 then isSupLenLoop fuel (length.tdiv 11)
      else if length.tmod 13 = 0 then isSupLenLoop fuel (length.tdiv 13)
      else some false
    else some true

/-- The function `isSupLen`: the loop with as many iterations as the length allows
(each one at least halves the length, so they always suffice, see
`isSupLenLoop_total`). -/
def isSupLen (length : Int) : Bool :=
  match isSupLenLoop length.toNat length with
  | some b => b
  | none => false

/-- How a transform entry point ends. -/
inductive Outcome (α : Type) where
  | ok (value : α) (s : Process)
  | argError (s : Process)
  | undefined

/-- The template `verifySupported<rank>`: `true` when every `ARG_ASSERT` passes,
`false` when one raises the argument error. -/
def verifySupported (rank : Nat) (dims : dim4) : Bool :=
  (List.range rank).all (fun i => isSupLen (dims.get i))

/-- The loop `int batch = 1; for (int i = rank; i < 4; i++) batch *= tdims[i];`: the
product is taken in `size_t` and stored back into the `int`. -/
def computeBatch (rank : Nat) (tdims : Nat → Nat) : Int :=
  ((List.range 4).filter (fun i => rank ≤ i)).foldl
    (fun batch i => wrapInt32 (((toSizeT batch * tdims i) % 2 ^ 64 : Nat) : Int)) 1

/-- The common tail of the entry points: look the plan up and enqueue the transform. -/
def runTransform (ext : Engine) (a : PlanArgs) (forward : Bool) (imem omem : Nat)
    (s : Process) : Option Process :=
  (find_clfft_plan ext a s).map (fun r =>
    { r.2 with calls := r.2.calls ++ [ExtCall.clfftEnqueueTransform r.1 forward imem omem] })

def fft_inplace (ext : Engine) (T : ElemType) (rank : Nat) (direction : Bool)
    (inp : Array) (s : Process) : Outcome Unit :=
  if verifySupported rank inp.dims then
    let tdims := computeDims inp.dims
    let istrides := computeDims inp.strides
    let batch := computeBatch rank tdims
    let a : PlanArgs :=
      { iLayout := ext.CLFFT_COMPLEX_INTERLEAVED, oLayout := ext.CLFFT_COMPLEX_INTERLEAVED,
        rank := rank, clLengths := tdims,
        istrides := some istrides, idist := istrides rank,
        ostrides := some istrides, odist := istrides rank,
        precision := Precision ext T, batch := toSizeT batch }
    match runTransform ext a direction inp.mem inp.mem s with
    | some s1 => Outcome.ok () s1
    | none => Outcome.undefined
  else Outcome.argError s

def fft_r2c (ext : Engine) (Tc : ElemType) (rank : Nat) (inp : Array) (s : Process) :
    Outcome Array :=
  let odims : dim4 := { inp.dims with d0 := inp.dims.d0.tdiv 2 + 1 }
  let out := ext.createEmptyArray odims
  if verifySupported rank inp.dims then
    let tdims := computeDims inp.dims
    let istrides := computeDims inp.strides
    let ostrides := computeDims out.strides
    let batch := computeBatch rank tdims
    let a : PlanArgs :=
      { iLayout := ext.CLFFT_REAL, oLayout := ext.CLFFT_HERMITIAN_INTERLEAVED,
        rank := rank, clLengths := tdims,
        istrides := some istrides, idist := istrides rank,
        ostrides := some ostrides, odist := ostrides rank,
        precision := Precision ext Tc, batch := toSizeT batch }
    match runTransform ext a true inp.mem out.mem s with
    | some s1 => Outcome.ok out s1
    | none => Outcome.undefined
  else Outcome.argError s

def fft_c2r (ext : Engine) (Tc : ElemType) (rank : Nat) (inp : Array) (odims : dim4)
    (s : Process) : Outcome Array :=
  let out := ext.createEmptyArray odims
  if verifySupported rank odims then
    let tdims := computeDims odims
    let istrides := computeDims inp.strides
    let ostrides := computeDims out.strides
    let batch := computeBatch rank tdims
    let a : PlanArgs :=
      { iLayout := ext.CLFFT_HERMITIAN_INTERLEAVED, oLayout := ext.CLFFT_REAL,
        rank := rank, clLengths := tdims,
        istrides := some istrides, idist := istrides rank,
        ostrides := some ostrides, odist := ostrides rank,
        precision := Precision ext Tc, batch := toSizeT batch }
    match runTransform ext a false inp.mem out.mem s with
    | some s1 => Outcome.ok out s1
    | none => Outcome.undefined
  else Outcome.argError s

/-! ## Predicates and inputs used in the statements -/

/-- The parameter tuple of a call of `find_clfft_plan`: the layouts, the rank, the
first `rank` lengths, each stride group that is supplied (its first `rank`
strides and its distance), the precision and the batch. -/
@[ext]
structure PlanTuple where
  iLayout : Int
  oLayout : Int
  rank : Nat
  lengths : List Nat
  inGroup : Option (List Nat × Nat)
  outGroup : Option (List Nat × Nat)
  precision : Int
  batch : Nat
  deriving DecidableEq, Repr

/-- The parameter tuple of the arguments `a`: what the arrays hold beyond the rank, and
the distance of a stride group that is not supplied, are not part of it. -/
def planTuple (a : PlanArgs) : PlanTuple :=
  { iLayout := a.iLayout, oLayout := a.oLayout, rank := a.rank,
    lengths := firstN a.rank a.clLengths,
    inGroup := a.istrides.map (fun st => (firstN a.rank st, a.idist)),
    outGroup := a.ostrides.map (fun st => (firstN a.rank st, a.odist)),
    precision := a.precision, batch := a.batch }

/-- The tuple with the two stride groups exchanged. -/
def PlanTuple.swapGroups (t : PlanTuple) : PlanTuple :=
  { t with inGroup := t.outGroup, outGroup := t.inGroup }

/-- Exactly one stride group is supplied in `t`, and `u` supplies the same strides and
distance as the other group, all other fields being equal. -/
def groupsSwapped (t u : PlanTuple) : Prop :=
  t.inGroup.isSome ≠ t.outGroup.isSome ∧ u = t.swapGroups

/-- The numbers a stride group contributes to the key. -/
def groupFields (g : Option (List Nat × Nat)) : List Nat :=
  match g with
  | some (strides, dist) => strides ++ [dist]
  | none => []

/-- The fields of the key that are followed by a colon, as character lists. -/
def keyFields (t : PlanTuple) : List (List Char) :=
  [(fmtInt t.iLayout).data, (fmtInt t.oLayout).data, (fmtInt (t.rank : Int)).data] ++
    t.lengths.map (fun v => (fmtSizeT v).data) ++
    (groupFields t.inGroup ++ groupFields t.outGroup).map (fun v => (fmtSizeT v).data) ++
    [(fmtInt t.precision).data]

/-- Each field followed by a colon. -/
def withColons : List (List Char) → List Char
  | [] => []
  | f :: fs => f ++ ':' :: withColons fs

/-- Arguments with the input stride group only. -/
def inputGroupOnly : PlanArgs :=
  { iLayout := 1, oLayout := 1, rank := 1, clLengths := fun _ => 8,
    istrides := some (fun _ => 1), idist := 8, ostrides := none, odist := 0,
    precision := 1, batch := 1 }

/-- Arguments with the output stride group only, of the same strides and distance. -/
def outputGroupOnly : PlanArgs :=
  { iLayout := 1, oLayout := 1, rank := 1, clLengths := fun _ => 8,
    istrides := none, idist := 0, ostrides := some (fun _ => 1), odist := 8,
    precision := 1, batch := 1 }

/-- No prime factor of `n` exceeds 13. -/
def SmallPrimesOnly (n : Int) : Prop := ∀ p : Nat, p.Prime → (p : Int) ∣ n → p ≤ 13

/-- Whether a logged call is a `clfftDestroyPlan`. -/
def ExtCall.isDestroyPlan : ExtCall → Bool
  | ExtCall.clfftDestroyPlan _ => true
  | _ => false

/-- The planner reached from an empty cache of maximum size `C` by a run of
`pushPlan` calls. -/
def builtPlanner (C : Nat) (log : List ExtCall) (entries : List FFTPlanPair) : clFFTPlanner :=
  (pushPlans { planner := { mMaxCacheSize := C, mCache := [] }, calls := log } entries).planner

/-- A run of `find_clfft_plan` calls, first element first, and the state after the last. -/
def findPlans (ext : Engine) : Process → List PlanArgs → Option Process
  | s, [] => some s
  | s, a :: rest =>
    match find_clfft_plan ext a s with
    | some r => findPlans ext r.2 rest
    | none => none

/-- A stand-in for the library: the handle of a new plan is the number of calls logged
so far, arrays are allocated with dense strides, the enumerators have the values of clFFT.h. -/
def sampleEngine : Engine :=
  { newPlan := fun calls => calls.length,
    createEmptyArray := fun d =>
      { dims := d, strides := { d0 := 1, d1 := d.d0, d2 := d.d0 * d.d1, d3 := d.d0 * d.d1 * d.d2 },
        mem := 0 },
    CLFFT_COMPLEX_INTERLEAVED := 1, CLFFT_HERMITIAN_INTERLEAVED := 3, CLFFT_REAL := 5,
    CLFFT_SINGLE := 1, CLFFT_DOUBLE := 2 }

/-- The arguments of a one-dimensional in-place complex transform of length `n`, the
arrays holding `unused` beyond the rank. -/
def sampleArgs (n unused : Nat) : PlanArgs :=
  { iLayout := 1, oLayout := 1, rank := 1,
    clLengths := fun i => if i = 0 then n else unused,
    istrides := some (fun i => if i = 0 then 1 else unused), idist := n,
    ostrides := some (fun i => if i = 0 then 1 else unused), odist := n,
    precision := 1, batch := 1 }

/-- The decimal numeral of a natural number: its base-10 digits, the most
significant first, and `0` for zero. -/
def decimalNat (n : Nat) : List Char :=
  if n = 0 then ['0'] else ((Nat.digits 10 n).map Nat.digitChar).reverse

/-- The decimal numeral of an integer: a minus sign before the numeral of the
absolute value when it is negative. -/
def decimalInt (v : Int) : List Char :=
  if v < 0 then '-' :: decimalNat v.natAbs else decimalNat v.natAbs

/-- Splitting a text at its colons: the pieces between them, in order. -/
def splitAtColons : List Char → List (List Char)
  | [] => [[]]
  | c :: cs =>
    if c = ':' then [] :: splitAtColons cs
    else
      match splitAtColons cs with
      | f :: fs => (c :: f) :: fs
      | [] => [[c]]

/-- The fields of the key in the canonical order of the specification: layout pair,
rank, the first `rank` lengths, the first `rank` input strides and the input
distance when input strides are supplied, the first `rank` output strides and
the output distance when output strides are supplied, precision, batch; each
as a decimal numeral. -/
def canonicalFields (a : PlanArgs) : List (List Char) :=
  [decimalInt a.iLayout, decimalInt a.oLayout, decimalInt (a.rank : Int)] ++
    (firstN a.rank a.clLengths).map decimalNat ++
    (match a.istrides with
      | some istrides => (firstN a.rank istrides).map decimalNat ++ [decimalNat a.idist]
      | none => []) ++
    (match a.ostrides with
      | some ostrides => (firstN a.rank ostrides).map decimalNat ++ [decimalNat a.odist]
      | none => []) ++
    [decimalInt a.precision, decimalNat a.batch]

/-- The array `arr` with the elements at the indices `rank` and beyond replaced by
those of `other`. -/
def replaceBeyond (rank : Nat) (arr other : Nat → Nat) : Nat → Nat :=
  fun r => if r < rank then arr r else other r

/-- The arguments `a` with every array changed beyond the rank. -/
def changedBeyondRank (a : PlanArgs) (l i o : Nat → Nat) : PlanArgs :=
  { a with
    clLengths := replaceBeyond a.rank a.clLengths l
    istrides := a.istrides.map (fun st => replaceBeyond a.rank st i)
    ostrides := a.ostrides.map (fun st => replaceBeyond a.rank st o) }

/-- A cache in which the key `k` occurs twice. -/
def sampleCache : clFFTPlanner :=
  { mMaxCacheSize := 5, mCache := [("a", 1), ("k", 2), ("b", 3), ("k", 4), ("c", 5)] }

/-! ## Supported lengths -/

theorem smallPrimesOnly_one : SmallPrimesOnly ((1 : Nat) : Int) := by
  intro p hp hd
  have h1 : p ∣ 1 := Int.natCast_dvd_natCast.mp hd
  have h2 := Nat.le_of_dvd (by norm_num) h1
  omega

theorem smallPrimesOnly_div {n q : Nat} (hq : q.Prime) (hq13 : q ≤ 13) (hd : q ∣ n) :
    SmallPrimesOnly (n : Int) ↔ SmallPrimesOnly ((n / q : Nat) : Int) := by
  obtain ⟨m, rfl⟩ := hd
  rw [Nat.mul_div_cancel_left m hq.pos]
  constructor
  · intro h p hp hpm
    have hm : p ∣ m := Int.natCast_dvd_natCast.mp hpm
    exact h p hp (Int.natCast_dvd_natCast.mpr (Dvd.dvd.mul_left hm q))
  · intro h p hp hpm
    have hqm : p ∣ q * m := Int.natCast_dvd_natCast.mp hpm
    rcases (Nat.Prime.dvd_mul hp).mp hqm with h1 | h1
    · have hpq : p = q := (Nat.prime_dvd_prime_iff_eq hp hq).mp h1
      omega
    · exact h p hp (Int.natCast_dvd_natCast.mpr h1)

theorem not_smallPrimesOnly_of_no_divisor {n : Nat} (hn : 1 < n)
    (h2 : n % 2 ≠ 0) (h3 : n % 3 ≠ 0) (h5 : n % 5 ≠ 0) (h7 : n % 7 ≠ 0)
    (h11 : n % 11 ≠ 0) (h13 : n % 13 ≠ 0) : ¬ SmallPrimesOnly (n : Int) := by
  intro h
  obtain ⟨p, hp, hpn⟩ := Nat.exists_prime_and_dvd (show n ≠ 1 by omega)
  have hle : p ≤ 13 := h p hp (Int.natCast_dvd_natCast.mpr hpn)
  have hmod : n % p = 0 := Nat.mod_eq_zero_of_dvd hpn
  have h2le := hp.two_le
  interval_cases p <;> omega

/-- With `n - 1` iterations or more the loop ends, and its result tells whether
`n` has small prime factors only. -/
theorem isSupLenLoop_nat (fuel : Nat) : ∀ n : Nat, 1 ≤ n → n ≤ fuel + 1 →
    ∃ b, isSupLenLoop fuel (n : Int) = some b ∧ (b = true ↔ SmallPrimesOnly (n : Int)) := by
  induction fuel with
  | zero =>
    intro n h1 h2
    have hn : n = 1 := by omega
    subst hn
    exact ⟨true, by simp [isSupLenLoop], by simpa using smallPrimesOnly_one⟩
  | succ fuel ih =>
    intro n h1 h2
    by_cases hn : n = 1
    · subst hn
      exact ⟨true, by simp [isSupLenLoop], by simpa using smallPrimesOnly_one⟩
    · have hgt : (n : Int) > 1 := by omega
      have step : ∀ q : Nat, q.Prime → q ≤ 13 → n % q = 0 →
          ∃ b, isSupLenLoop fuel (((n / q : Nat)) : Int) = some b ∧
            (b = true ↔ SmallPrimesOnly (n : Int)) := by
        intro q hq hq13 hmod
        have hd : q ∣ n := Nat.dvd_of_mod_eq_zero hmod
        have hq2 := hq.two_le
        have hlt : n / q < n := Nat.div_lt_self (by omega) hq2
        have hpos : 1 ≤ n / q := Nat.div_pos (Nat.le_of_dvd (by omega) hd) hq.pos
        obtain ⟨b, hb, hiff⟩ := ih (n / q) hpos (by omega)
        exact ⟨b, hb, hiff.trans (smallPrimesOnly_div hq hq13 hd).symm⟩
      rw [isSupLenLoop]
      simp only [hgt, if_true]
      have e : ∀ q : Nat, (n : Int).tmod (q : Int) = ((n % q : Nat) : Int) := fun q => rfl
      have d : ∀ q : Nat, (n : Int).tdiv (q : Int) = ((n / q : Nat) : Int) := fun q => rfl
      have e2 := e 2; have e3 := e 3; have e5 := e 5; have e7 := e 7
      have e11 := e 11; have e13 := e 13
      have d2 := d 2; have d3 := d 3; have d5 := d 5; have d7 := d 7
      have d11 := d 11; have d13 := d 13
      simp only [Nat.cast_ofNat] at e2 e3 e5 e7 e11 e13 d2 d3 d5 d7 d11 d13
      rw [e2, e3, e5, e7, e11, e13, d2, d3, d5, d7, d11, d13]
      simp only [Int.natCast_eq_zero]
      split_ifs with c2 c3 c5 c7 c11 c13
      · exact step 2 (by norm_num) (by norm_num) c2
      · exact step 3 (by norm_num) (by norm_num) c3
      · exact step 5 (by norm_num) (by norm_num) c5
      · exact step 7 (by norm_num) (by norm_num) c7
      · exact step 11 (by norm_num) (by norm_num) c11
      · exact step 13 (by norm_num) (by norm_num) c13
      · refine ⟨false, rfl, ?_⟩
        simp only [Bool.false_eq_true, false_iff]
        exact not_smallPrimesOnly_of_no_divisor (by omega) c2 c3 c5 c7 c11 c13

/-- For a length of at least 1 the loop of `isSupLen` ends within `length` iterations. -/
theorem isSupLenLoop_terminates (n : Int) (hn : 1 ≤ n) (fuel : Nat) (hf : n.toNat ≤ fuel) :
    ∃ b, isSupLenLoop fuel n = some b ∧ (b = true ↔ SmallPrimesOnly n) := by
  obtain ⟨m, rfl⟩ := Int.eq_ofNat_of_zero_le (by omega : 0 ≤ n)
  simp only [Int.toNat_ofNat] at hf
  exact isSupLenLoop_nat fuel m (by omega) (by omega)

/-- The iterations that `isSupLen` allows always suffice. -/
theorem isSupLenLoop_total (n : Int) : ∃ b, isSupLenLoop n.toNat n = some b := by
  by_cases hn : 1 ≤ n
  · obtain ⟨b, hb, _⟩ := isSupLenLoop_terminates n hn n.toNat le_rfl
    exact ⟨b, hb⟩
  · have h0 : n.toNat = 0 := by omega
    have h1 : ¬ n > 1 := by omega
    exact ⟨true, by rw [h0, isSupLenLoop, if_neg h1]⟩

theorem isSupLen_spec (n : Int) (hn : 1 ≤ n) :
    (∀ fuel, n.toNat ≤ fuel → isSupLenLoop fuel n = some (isSupLen n)) ∧
      (isSupLen n = true ↔ SmallPrimesOnly n) := by
  obtain ⟨b, hb, hiff⟩ := isSupLenLoop_terminates n hn n.toNat le_rfl
  have hval : isSupLen n = b := by simp [isSupLen, hb]
  refine ⟨?_, by rw [hval]; exact hiff⟩
  intro fuel hf
  obtain ⟨b2, hb2, hiff2⟩ := isSupLenLoop_terminates n hn fuel hf
  have hbb : b2 = b := by
    cases b <;> cases b2 <;> simp_all
  rw [hb2, hval, hbb]

/-- Claim C10. For every length `n ≥ 1`, `isSupLen n` terminates (the loop ends
within `n` iterations, whatever larger bound is allowed, with the value
`isSupLen n`) and it returns `true` if and only if `n` has no prime factor
greater than 13, that is, `n` factorizes into 2, 3, 5, 7, 11 and 13. -/
theorem isSupLen_true_iff_no_prime_factor_above_13 (n : Int) (hn : 1 ≤ n) :
    (∀ fuel, n.toNat ≤ fuel → isSupLenLoop fuel n = some (isSupLen n)) ∧
      (isSupLen n = true ↔ ∀ p : Nat, p.Prime → (p : Int) ∣ n → p ≤ 13) :=
  isSupLen_spec n hn

theorem isSupLen_true_iff_no_prime_factor_above_13_witness :
    (1 : Int) ≤ 12 ∧
      ((∀ fuel, (12 : Int).toNat ≤ fuel → isSupLenLoop fuel 12 = some (isSupLen 12)) ∧
        (isSupLen 12 = true ↔ ∀ p : Nat, p.Prime → (p : Int) ∣ 12 → p ≤ 13)) :=
  ⟨by decide, isSupLen_true_iff_no_prime_factor_above_13 12 (by decide)⟩

/-! ## Rejection of unsupported lengths -/

theorem verifySupported_false (rank : Nat) (dims : dim4) (i : Nat) (hi : i < rank)
    (p : Nat) (hp : p.Prime) (h13 : 13 < p) (hpos : 1 ≤ dims.get i)
    (hd : (p : Int) ∣ dims.get i) : verifySupported rank dims = false := by
  have hns : ¬ isSupLen (dims.get i) = true := by
    intro h
    have := ((isSupLen_spec (dims.get i) hpos).2.mp h) p hp hd
    omega
  simp only [verifySupported, List.all_eq_false, List.mem_range]
  exact ⟨i, hi, hns⟩

/-- Claim C9. For a rank in {1, 2, 3} and a shape in which some transformed axis
(index below the rank) has a positive length with a prime factor greater than
13, each of `fft_inplace`, `fft_r2c` and `fft_c2r` ends with the argument error
in the state it was entered in: `find_clfft_plan` is not reached, no clFFT call
(so no plan creation) is logged and the plan cache is unchanged. -/
theorem unsupported_length_rejected (ext : Engine) (rank : Nat) (dims : dim4)
    (hr : rank = 1 ∨ rank = 2 ∨ rank = 3) (i : Nat) (hi : i < rank)
    (p : Nat) (hp : p.Prime) (h13 : 13 < p) (hpos : 1 ≤ dims.get i)
    (hd : (p : Int) ∣ dims.get i) :
    (∀ T direction inp s, inp.dims = dims →
        fft_inplace ext T rank direction inp s = Outcome.argError s) ∧
      (∀ Tc inp s, inp.dims = dims → fft_r2c ext Tc rank inp s = Outcome.argError s) ∧
      (∀ Tc inp s, fft_c2r ext Tc rank inp dims s = Outcome.argError s) := by
  have hv := verifySupported_false rank dims i hi p hp h13 hpos hd
  have hrank : 1 ≤ rank ∧ rank ≤ 3 := by omega
  refine ⟨?_, ?_, ?_⟩
  · intro T direction inp s hdims
    simp [fft_inplace, hdims, hv]
  · intro Tc inp s hdims
    simp [fft_r2c, hdims, hv]
  · intro Tc inp s
    simp [fft_c2r, hv]


theorem unsupported_length_rejected_witness :
    ((2 : Nat) = 1 ∨ (2 : Nat) = 2 ∨ (2 : Nat) = 3) ∧ (0 : Nat) < 2 ∧ Nat.Prime 17 ∧
      13 < 17 ∧ 1 ≤ (dim4.mk 34 8 1 1).get 0 ∧ ((17 : Nat) : Int) ∣ (dim4.mk 34 8 1 1).get 0 ∧
      ((∀ T direction inp s, inp.dims = dim4.mk 34 8 1 1 →
          fft_inplace sampleEngine T 2 direction inp s = Outcome.argError s) ∧
        (∀ Tc inp s, inp.dims = dim4.mk 34 8 1 1 →
          fft_r2c sampleEngine Tc 2 inp s = Outcome.argError s) ∧
        (∀ Tc inp s, fft_c2r sampleEngine Tc 2 inp (dim4.mk 34 8 1 1) s = Outcome.argError s)) :=
  ⟨by decide, by decide, by norm_num, by decide, by decide, ⟨2, rfl⟩,
    unsupported_length_rejected sampleEngine 2 (dim4.mk 34 8 1 1) (by decide) 0 (by decide) 17
      (by norm_num) (by decide) (by decide) ⟨2, rfl⟩⟩

/-! ## Lookup -/

theorem wrapInt32_of_lt (n : Nat) (h : n < 2 ^ 31) : wrapInt32 (n : Int) = (n : Int) := by
  unfold wrapInt32
  omega

theorem findIfPlanExistsLoop_no_match (key : String) (c : FFTPlanCache) (i : Nat) (r : Int)
    (h : ∀ e ∈ c, e.1 ≠ key) : findIfPlanExistsLoop key c i r = r := by
  induction c generalizing i r with
  | nil => rfl
  | cons e rest ih =>
    have he : ¬ key = e.1 := fun hk => h e (List.mem_cons_self _ _) hk.symm
    rw [findIfPlanExistsLoop, if_neg he]
    exact ih (i + 1) r (fun x hx => h x (List.mem_cons_of_mem _ hx))

theorem findIfPlanExistsLoop_append (key : String) (c1 c2 : FFTPlanCache) (i : Nat) (r : Int) :
    findIfPlanExistsLoop key (c1 ++ c2) i r =
      findIfPlanExistsLoop key c2 (i + c1.length) (findIfPlanExistsLoop key c1 i r) := by
  induction c1 generalizing i r with
  | nil => simp [findIfPlanExistsLoop]
  | cons e rest ih =>
    rw [List.cons_append, findIfPlanExistsLoop, findIfPlanExistsLoop, ih, List.length_cons]
    congr 1
    omega

theorem findIfPlanExistsLoop_last_match (key : String) (c1 c2 : FFTPlanCache) (e : FFTPlanPair)
    (i : Nat) (r : Int) (he : e.1 = key) (h2 : ∀ x ∈ c2, x.1 ≠ key) :
    findIfPlanExistsLoop key (c1 ++ e :: c2) i r = wrapInt32 ((i + c1.length : Nat) : Int) := by
  rw [findIfPlanExistsLoop_append, findIfPlanExistsLoop, if_pos he.symm]
  exact findIfPlanExistsLoop_no_match key c2 _ _ h2

theorem exists_last_match (key : String) (c : FFTPlanCache) (h : ∃ e ∈ c, e.1 = key) :
    ∃ c1 e c2, c = c1 ++ e :: c2 ∧ e.1 = key ∧ ∀ x ∈ c2, x.1 ≠ key := by
  induction c with
  | nil => simp at h
  | cons x xs ih =>
    by_cases hx : ∃ e ∈ xs, e.1 = key
    · obtain ⟨c1, e, c2, hc, he, h2⟩ := ih hx
      exact ⟨x :: c1, e, c2, by simp [hc], he, h2⟩
    · obtain ⟨e, hmem, he⟩ := h
      have hex : e = x := by
        rcases List.mem_cons.mp hmem with h1 | h1
        · exact h1
        · exact absurd ⟨e, h1, he⟩ hx
      subst hex
      refine ⟨[], e, xs, rfl, he, ?_⟩
      intro y hy hyk
      exact hx ⟨y, hy, hyk⟩

theorem findIfPlanExists_no_match (p : clFFTPlanner) (key : String)
    (hlen : p.mCache.length < 2 ^ 32) (h : ∀ e ∈ p.mCache, e.1 ≠ key) :
    findIfPlanExists p key = some (-1) := by
  simp only [findIfPlanExists, if_pos hlen]
  rw [findIfPlanExistsLoop_no_match key _ _ _ h]

theorem findIfPlanExists_last_match (p : clFFTPlanner) (key : String)
    (c1 c2 : FFTPlanCache) (e : FFTPlanPair) (hc : p.mCache = c1 ++ e :: c2)
    (hlen : p.mCache.length < 2 ^ 31) (he : e.1 = key) (h2 : ∀ x ∈ c2, x.1 ≠ key) :
    findIfPlanExists p key = some (c1.length : Int) := by
  have h32 : p.mCache.length < 2 ^ 32 := by omega
  simp only [findIfPlanExists, if_pos h32]
  rw [hc, findIfPlanExistsLoop_last_match key c1 c2 e 0 (-1) he h2]
  have hl : c1.length < 2 ^ 31 := by
    have : p.mCache.length = c1.length + (c2.length + 1) := by simp [hc]
    omega
  rw [Nat.zero_add, wrapInt32_of_lt _ hl]

theorem getPlan_at (p : clFFTPlanner) (c1 c2 : FFTPlanCache) (e : FFTPlanPair)
    (hc : p.mCache = c1 ++ e :: c2) : getPlan p (c1.length : Int) = some e.2 := by
  have hget : (c1 ++ e :: c2).get? c1.length = some e := by
    rw [List.get?_eq_getElem?, List.getElem?_append_right (le_refl _)]
    simp
  simp only [getPlan, hc, Int.toNat_ofNat, hget]
  simp

theorem pushPlan_cache (s : Process) (key : String) (plan : clfftPlanHandle) :
    (pushPlan s key plan).planner.mCache =
      (key, plan) :: (if s.planner.mCache.length > s.planner.mMaxCacheSize
        then s.planner.mCache.dropLast else s.planner.mCache) := by
  unfold pushPlan
  by_cases h : s.planner.mCache.length > s.planner.mMaxCacheSize
  · simp only [h, if_true]
    unfold popPlan
    cases hl : s.planner.mCache.getLast? with
    | none =>
      have : s.planner.mCache = [] := List.getLast?_eq_none_iff.mp hl
      simp [this]
    | some back => simp
  · simp only [h, if_false]


/-! ## The key reads the parameter tuple only -/

theorem appendFields_eq (k : String) (rank : Nat) (arr : Nat → Nat) :
    appendFields k rank arr =
      (firstN rank arr).foldl (fun k v => k ++ (fmtSizeT v ++ ":")) k := by
  simp [appendFields, firstN, List.foldl_map]

theorem key_string_congr (a b : PlanArgs) (h : planTuple a = planTuple b) :
    key_string a = key_string b := by
  obtain ⟨ai, ao, ar, al, ais, aid, aos, aod, ap, ab⟩ := a
  obtain ⟨bi, bo, br, bl, bis, bid, bos, bod, bp, bb⟩ := b
  simp only [planTuple, PlanTuple.mk.injEq] at h
  obtain ⟨h1, h2, h3, h4, h5, h6, h7, h8⟩ := h
  subst h1 h2 h3 h7 h8
  simp only [key_string, appendFields_eq, h4]
  cases ais <;> cases bis <;> cases aos <;> cases bos <;>
    simp_all

/-! ## Reuse of a cached plan -/

theorem find_clfft_plan_hit (ext : Engine) (a : PlanArgs) (s : Process)
    (c1 c2 : FFTPlanCache) (e : FFTPlanPair) (hc : s.planner.mCache = c1 ++ e :: c2)
    (hlen : s.planner.mCache.length < 2 ^ 31) (he : e.1 = key_string a)
    (h2 : ∀ x ∈ c2, x.1 ≠ key_string a) :
    find_clfft_plan ext a s = some (e.2, s) := by
  have hidx : ((c1.length : Nat) : Int) ≠ -1 := by omega
  simp only [find_clfft_plan, findIfPlanExists_last_match _ _ c1 c2 e hc hlen he h2,
    getPlan_at _ c1 c2 e hc]
  simp [hidx]

theorem find_clfft_plan_miss (ext : Engine) (a : PlanArgs) (s : Process)
    (hlen : s.planner.mCache.length < 2 ^ 32) (h : ∀ e ∈ s.planner.mCache, e.1 ≠ key_string a) :
    find_clfft_plan ext a s =
      some (ext.newPlan s.calls,
        pushPlan { s with calls := s.calls ++ creationCalls a (ext.newPlan s.calls) }
          (key_string a) (ext.newPlan s.calls)) := by
  simp [find_clfft_plan, findIfPlanExists_no_match _ _ hlen h]

/-- Claim C2. In every planner state (its cache within the range of the `int` index)
a call of `find_clfft_plan` returns a plan, and a second call with equal
parameters, made right after it, returns the same plan handle and leaves the
state as it is: nothing is added to the log of clFFT calls (no
`clfftCreateDefaultPlan`) and the cache is unchanged (no `pushPlan`). -/
theorem cache_hit_reuse (ext : Engine) (a b : PlanArgs) (s : Process)
    (hab : planTuple b = planTuple a) (hlen : s.planner.mCache.length + 1 < 2 ^ 31) :
    ∃ plan s1, find_clfft_plan ext a s = some (plan, s1) ∧
      find_clfft_plan ext b s1 = some (plan, s1) := by
  have hkey : key_string b = key_string a := key_string_congr b a hab
  by_cases hm : ∃ e ∈ s.planner.mCache, e.1 = key_string a
  · obtain ⟨c1, e, c2, hc, he, h2⟩ := exists_last_match _ _ hm
    refine ⟨e.2, s, find_clfft_plan_hit ext a s c1 c2 e hc (by omega) he h2, ?_⟩
    exact find_clfft_plan_hit ext b s c1 c2 e hc (by omega) (by rw [hkey]; exact he)
      (by rw [hkey]; exact h2)
  · have hno : ∀ e ∈ s.planner.mCache, e.1 ≠ key_string a := fun e he hk => hm ⟨e, he, hk⟩
    refine ⟨_, _, find_clfft_plan_miss ext a s (by omega) hno, ?_⟩
    set temp := ext.newPlan s.calls with htemp
    set s0 : Process := { s with calls := s.calls ++ creationCalls a temp } with hs0
    have hcache := pushPlan_cache s0 (key_string a) temp
    have hrest : ∀ x ∈ (if s0.planner.mCache.length > s0.planner.mMaxCacheSize
        then s0.planner.mCache.dropLast else s0.planner.mCache), x.1 ≠ key_string b := by
      intro x hx
      rw [hkey]
      split_ifs at hx
      · exact hno x (List.mem_of_mem_dropLast hx)
      · exact hno x hx
    have hs0c : s0.planner.mCache = s.planner.mCache := rfl
    have hl : (pushPlan s0 (key_string a) temp).planner.mCache.length < 2 ^ 31 := by
      rw [hcache, hs0c]
      simp only [List.length_cons]
      split_ifs
      · rw [List.length_dropLast]
        omega
      · omega
    have := find_clfft_plan_hit ext b (pushPlan s0 (key_string a) temp) [] _
      (key_string a, temp) (by rw [hcache]; rfl) hl hkey.symm hrest
    exact this

theorem cache_hit_reuse_witness :
    planTuple (sampleArgs 8 1) = planTuple (sampleArgs 8 0) ∧
      (clFFTPlanner.construct []).planner.mCache.length + 1 < 2 ^ 31 ∧
      ∃ plan s1, find_clfft_plan sampleEngine (sampleArgs 8 0) (clFFTPlanner.construct []) =
          some (plan, s1) ∧
        find_clfft_plan sampleEngine (sampleArgs 8 1) s1 = some (plan, s1) :=
  ⟨by decide, by decide,
    cache_hit_reuse sampleEngine (sampleArgs 8 0) (sampleArgs 8 1) (clFFTPlanner.construct [])
      (by decide) (by decide)⟩


/-! ## Eviction -/

theorem pushPlans_concat (s : Process) (es : List FFTPlanPair) (e : FFTPlanPair) :
    pushPlans s (es ++ [e]) = pushPlan (pushPlans s es) e.1 e.2 := by
  simp [pushPlans, List.foldl_append]

/-- What a run of `pushPlan` calls on an empty cache of maximum size `C` does: the
cache holds the `C + 1` entries pushed last, the newest first, and
`clfftDestroyPlan` has been called for the handles pushed before them, oldest
first, and for nothing else. -/
theorem pushPlans_from_empty (C : Nat) (log : List ExtCall) (es : List FFTPlanPair) :
    (pushPlans { planner := { mMaxCacheSize := C, mCache := [] }, calls := log } es) =
      { planner := { mMaxCacheSize := C, mCache := es.reverse.take (C + 1) },
        calls := log ++ (es.take (es.length - (C + 1))).map
          (fun e => ExtCall.clfftDestroyPlan e.2) } := by
  induction es using List.reverseRecOn with
  | nil => simp [pushPlans]
  | append_singleton es e ih =>
    rw [pushPlans_concat, ih]
    by_cases hn : C + 1 ≤ es.length
    · have hlen : (es.reverse.take (C + 1)).length = C + 1 := by
        rw [List.length_take, List.length_reverse]; omega
      have hlast : (es.reverse.take (C + 1)).getLast? = es[es.length - 1 - C]? := by
        rw [List.getLast?_eq_getElem?, hlen, List.getElem?_take_of_lt (by omega)]
        simp only [Nat.add_sub_cancel]
        rw [List.getElem?_reverse (by omega)]
      obtain ⟨x, hx⟩ : ∃ x, es[es.length - 1 - C]? = some x :=
        ⟨es[es.length - 1 - C], by rw [List.getElem?_eq_getElem]⟩
      have hdrop : (es.reverse.take (C + 1)).dropLast = es.reverse.take C := by
        rw [List.dropLast_eq_take, hlen, List.take_take]
        simp
      have htake : (es ++ [e]).take ((es ++ [e]).length - (C + 1)) =
          es.take (es.length - (C + 1)) ++ [x] := by
        have h1 : (es ++ [e]).length - (C + 1) = (es.length - (C + 1)) + 1 := by
          simp only [List.length_append, List.length_singleton]; omega
        rw [h1, List.take_append_of_le_length (by omega), List.take_succ]
        have h2 : es.length - (C + 1) = es.length - 1 - C := by omega
        rw [h2, hx]
        rfl
      simp only [pushPlan, hlen, gt_iff_lt, Nat.lt_succ_self, if_true, popPlan, hlast, hx, hdrop,
        htake, List.reverse_concat, List.take_succ_cons, List.map_append, List.map_cons,
        List.map_nil, List.append_assoc]
    · have hlen : (es.reverse.take (C + 1)).length = es.length := by
        rw [List.length_take, List.length_reverse]; omega
      have hnot : ¬ es.length > C := by omega
      have h0 : es.length - (C + 1) = 0 := by omega
      have h1 : (es ++ [e]).length - (C + 1) = 0 := by
        simp only [List.length_append, List.length_singleton]; omega
      simp only [pushPlan, hlen, hnot, if_false, h0, h1, List.take_zero, List.map_nil,
        List.reverse_concat, List.take_succ_cons]
      rw [List.take_of_length_le (by rw [List.length_reverse]; omega),
        List.take_of_length_le (by rw [List.length_reverse]; omega)]

/-- After `C + k` pushes, `k ≥ 1`, on an empty cache of maximum size `C`, the cache
holds `C + 1` entries and `k - 1` handles have been destroyed. -/
theorem pushPlans_count (C k : Nat) (log : List ExtCall) (es : List FFTPlanPair)
    (hk : 1 ≤ k) (hes : es.length = C + k) :
    (pushPlans { planner := { mMaxCacheSize := C, mCache := [] }, calls := log }
        es).planner.mCache.length = C + 1 ∧
      (pushPlans { planner := { mMaxCacheSize := C, mCache := [] }, calls := log } es).calls =
        log ++ (es.take (k - 1)).map (fun e => ExtCall.clfftDestroyPlan e.2) := by
  rw [pushPlans_from_empty]
  have h1 : es.length - (C + 1) = k - 1 := by omega
  simp only [List.length_take, List.length_reverse, h1, and_true]
  omega

/-- Claim C3, at the failing input: six `pushPlan` calls with distinct keys on a new
planner (maximum size 5) leave six entries in the cache and no
`clfftDestroyPlan` call in the log, where the claim asks for five entries and
the oldest handle destroyed. -/
theorem six_pushes_keep_six_entries :
    (pushPlans (clFFTPlanner.construct [])
        [("a", 1), ("b", 2), ("c", 3), ("d", 4), ("e", 5), ("f", 6)]).planner =
      { mMaxCacheSize := 5,
        mCache := [("f", 6), ("e", 5), ("d", 4), ("c", 3), ("b", 2), ("a", 1)] } ∧
    (pushPlans (clFFTPlanner.construct [])
        [("a", 1), ("b", 2), ("c", 3), ("d", 4), ("e", 5), ("f", 6)]).calls =
      [ExtCall.clfftInitSetupData, ExtCall.clfftSetup] := by
  decide

/-- Claim C4, at the failing input: after `setFFTPlanCacheSize(3)` on a new planner
`getMaxCacheSize()` still returns 5, the value `pushPlan` compares against;
what changed is the deque, now three empty entries. -/
theorem setFFTPlanCacheSize_keeps_mMaxCacheSize :
    getMaxCacheSize (setFFTPlanCacheSize (clFFTPlanner.construct []) 3).planner = 5 ∧
      (setFFTPlanCacheSize (clFFTPlanner.construct []) 3).planner.mCache =
        [("", 0), ("", 0), ("", 0)] := by
  decide

/-- Claim C5, counterexample: with three entries cached, `setMaxCacheSize(1)` leaves
one entry, so the sequence of entries is not as it was. -/
theorem setMaxCacheSize_shrink_removes_entries :
    (setMaxCacheSize { mMaxCacheSize := 5, mCache := [("a", 1), ("b", 2), ("c", 3)] } 1).mCache =
        [("a", 1)] ∧
      (setMaxCacheSize { mMaxCacheSize := 5, mCache := [("a", 1), ("b", 2), ("c", 3)] } 1).mCache ≠
        [("a", 1), ("b", 2), ("c", 3)] := by
  decide

/-- Claim C5, amended. For every cache state and every `n` smaller than the number of
entries, `setMaxCacheSize(n)` keeps the `n` entries nearest the front, in their
order, and removes the entries behind them. -/
theorem setMaxCacheSize_shrink_truncates (p : clFFTPlanner) (n : Nat)
    (h : n < p.mCache.length) :
    (setMaxCacheSize p n).mCache = p.mCache.take n ∧ (setMaxCacheSize p n).mCache.length = n := by
  have h0 : n - p.mCache.length = 0 := by omega
  have h1 : (setMaxCacheSize p n).mCache = p.mCache.take n := by
    simp [setMaxCacheSize, dequeResize, h0]
  refine ⟨h1, ?_⟩
  rw [h1, List.length_take]
  omega

theorem setMaxCacheSize_shrink_truncates_witness :
    1 < (clFFTPlanner.mk 5 [("a", 1), ("b", 2), ("c", 3)]).mCache.length ∧
      ((setMaxCacheSize (clFFTPlanner.mk 5 [("a", 1), ("b", 2), ("c", 3)]) 1).mCache =
          (clFFTPlanner.mk 5 [("a", 1), ("b", 2), ("c", 3)]).mCache.take 1 ∧
        (setMaxCacheSize (clFFTPlanner.mk 5 [("a", 1), ("b", 2), ("c", 3)]) 1).mCache.length = 1) :=
  ⟨by decide, setMaxCacheSize_shrink_truncates _ 1 (by decide)⟩

/-- Claim C6, at the failing input: on a new planner, six plans are requested for the
lengths 2 to 7, the plan of length 2 is requested again (a hit), and a plan of
length 8 is requested.  The last request evicts the plan of length 2 (handle 2),
the one used most recently, and keeps the plan of length 3 (handle 12), the
least recently used one. -/
theorem eviction_ignores_lookup_hits :
    (findPlans sampleEngine (clFFTPlanner.construct [])
        [sampleArgs 2 0, sampleArgs 3 0, sampleArgs 4 0, sampleArgs 5 0, sampleArgs 6 0,
          sampleArgs 7 0, sampleArgs 2 0, sampleArgs 8 0]).map
      (fun s => (s.planner.mCache.map Prod.snd,
        s.calls.filter ExtCall.isDestroyPlan)) =
      some ([62, 52, 42, 32, 22, 12], [ExtCall.clfftDestroyPlan 2]) := by
  decide


/-! ## Which entry a lookup returns -/

theorem pushPlans_cache_take (s : Process) (entries : List FFTPlanPair) :
    ∃ m, (pushPlans s entries).planner.mCache = (entries.reverse ++ s.planner.mCache).take m := by
  induction entries generalizing s with
  | nil => exact ⟨s.planner.mCache.length, by simp [pushPlans]⟩
  | cons e es ih =>
    obtain ⟨m, hm⟩ := ih (pushPlan s e.1 e.2)
    have hstep : ∃ k, (pushPlan s e.1 e.2).planner.mCache = (e :: s.planner.mCache).take (k + 1) := by
      rw [pushPlan_cache]
      split_ifs
      · exact ⟨s.planner.mCache.length - 1, by rw [List.dropLast_eq_take]; rfl⟩
      · exact ⟨s.planner.mCache.length, by simp⟩
    obtain ⟨k, hk⟩ := hstep
    refine ⟨min m (es.reverse.length + (k + 1)), ?_⟩
    have hfold : pushPlans s (e :: es) = pushPlans (pushPlan s e.1 e.2) es := rfl
    rw [hfold, hm, hk, ← List.take_append, List.take_take]
    simp

theorem builtPlanner_cache (C : Nat) (log : List ExtCall) (entries : List FFTPlanPair) :
    (builtPlanner C log entries).mCache =
      entries.reverse.take (builtPlanner C log entries).mCache.length := by
  obtain ⟨m, hm⟩ := pushPlans_cache_take
    { planner := { mMaxCacheSize := C, mCache := [] }, calls := log } entries
  simp only [List.append_nil] at hm
  have hb : (builtPlanner C log entries).mCache = entries.reverse.take m := hm
  rw [hb, List.length_take]
  simp

/-- The entry at index `j` of a cache built by `pushPlan` calls is the one pushed
by call number `entries.length - 1 - j` (counting from 0): a greater index is an
earlier push. -/
theorem builtPlanner_index (C : Nat) (log : List ExtCall) (entries : List FFTPlanPair)
    (j : Nat) (hj : j < (builtPlanner C log entries).mCache.length) :
    (builtPlanner C log entries).mCache[j]? = entries[entries.length - 1 - j]? := by
  have hlen : (builtPlanner C log entries).mCache.length ≤ entries.length := by
    have h := congrArg List.length (builtPlanner_cache C log entries)
    rw [List.length_take, List.length_reverse] at h
    omega
  rw [builtPlanner_cache, List.getElem?_take_of_lt hj, List.getElem?_reverse (by omega)]

/-- Claim C7, counterexample: after `pushPlan("k", 1)` and then `pushPlan("k", 2)` the
later-inserted entry is at index 0, and `findIfPlanExists("k")` returns index 1,
where `getPlan` yields the handle 1 of the earlier insertion. -/
theorem findIfPlanExists_returns_earlier_of_two :
    (builtPlanner 5 [] [("k", 1), ("k", 2)]).mCache = [("k", 2), ("k", 1)] ∧
      findIfPlanExists (builtPlanner 5 [] [("k", 1), ("k", 2)]) "k" = some 1 ∧
      getPlan (builtPlanner 5 [] [("k", 1), ("k", 2)]) 1 = some 1 := by
  decide

/-- Claim C7, amended. In a cache built by `pushPlan` calls from an empty cache (and
within the range of the `int` index), let two entries `e1` at index `j1` and
`e2` at index `j2 > j1` carry the same key.  Then `e1` is the later-inserted of
the two, and `findIfPlanExists` on that key returns the greatest index `i`
whose entry has the key: an entry inserted no later than `e2`, so before `e1`,
and the earliest-inserted of the cached entries with the key; `getPlan` on `i`
yields its handle. -/
theorem findIfPlanExists_returns_earliest_inserted (C : Nat) (log : List ExtCall)
    (entries : List FFTPlanPair) (j1 j2 : Nat) (e1 e2 : FFTPlanPair)
    (hlen : (builtPlanner C log entries).mCache.length < 2 ^ 31)
    (h12 : j1 < j2)
    (h1 : (builtPlanner C log entries).mCache[j1]? = some e1)
    (h2 : (builtPlanner C log entries).mCache[j2]? = some e2)
    (hk : e1.1 = e2.1) :
    ∃ (i : Nat) (e : FFTPlanPair),
      findIfPlanExists (builtPlanner C log entries) e1.1 = some (i : Int) ∧
      getPlan (builtPlanner C log entries) (i : Int) = some e.2 ∧
      (builtPlanner C log entries).mCache[i]? = some e ∧ e.1 = e1.1 ∧
      (∀ j x, (builtPlanner C log entries).mCache[j]? = some x → x.1 = e1.1 → j ≤ i) ∧
      entries[entries.length - 1 - i]? = some e ∧
      entries[entries.length - 1 - j2]? = some e2 ∧
      entries[entries.length - 1 - j1]? = some e1 ∧
      entries.length - 1 - i ≤ entries.length - 1 - j2 ∧
      entries.length - 1 - j2 < entries.length - 1 - j1 := by
  have hj2 : j2 < (builtPlanner C log entries).mCache.length := by
    by_contra hge
    rw [List.getElem?_eq_none (by omega)] at h2
    exact absurd h2 (by simp)
  have hex : ∃ e ∈ (builtPlanner C log entries).mCache, e.1 = e1.1 :=
    ⟨e2, List.getElem?_mem h2, hk.symm⟩
  obtain ⟨c1, e, c2, hc, he, hno⟩ := exists_last_match e1.1 _ hex
  have hat : (builtPlanner C log entries).mCache[c1.length]? = some e := by
    rw [hc, List.getElem?_append_right (le_refl _)]
    simp
  have hmax : ∀ j x, (builtPlanner C log entries).mCache[j]? = some x → x.1 = e1.1 →
      j ≤ c1.length := by
    intro j x hj hx
    by_contra hgt
    rw [hc, List.getElem?_append_right (by omega)] at hj
    obtain ⟨d, hd⟩ : ∃ d, j - c1.length = d + 1 := ⟨j - c1.length - 1, by omega⟩
    rw [hd, List.getElem?_cons_succ] at hj
    exact hno x (List.getElem?_mem hj) hx
  have hilt : c1.length < (builtPlanner C log entries).mCache.length := by
    rw [hc]
    simp
  have hle : (builtPlanner C log entries).mCache.length ≤ entries.length := by
    have h := congrArg List.length (builtPlanner_cache C log entries)
    rw [List.length_take, List.length_reverse] at h
    omega
  have hi2 := hmax j2 e2 h2 hk.symm
  refine ⟨c1.length, e, findIfPlanExists_last_match _ e1.1 c1 c2 e hc hlen he hno,
    getPlan_at _ c1 c2 e hc, hat, he, hmax, ?_, ?_, ?_, by omega, by omega⟩
  · rw [← builtPlanner_index C log entries _ hilt]
    exact hat
  · rw [← builtPlanner_index C log entries _ hj2]
    exact h2
  · rw [← builtPlanner_index C log entries _ (by omega)]
    exact h1

theorem findIfPlanExists_returns_earliest_inserted_witness :
    (builtPlanner 5 [] [("k", 1), ("j", 2), ("k", 3)]).mCache.length < 2 ^ 31 ∧
      (0 : Nat) < 2 ∧
      (builtPlanner 5 [] [("k", 1), ("j", 2), ("k", 3)]).mCache[0]? = some ("k", 3) ∧
      (builtPlanner 5 [] [("k", 1), ("j", 2), ("k", 3)]).mCache[2]? = some ("k", 1) ∧
      ∃ (i : Nat) (e : FFTPlanPair),
        findIfPlanExists (builtPlanner 5 [] [("k", 1), ("j", 2), ("k", 3)]) "k" = some (i : Int) ∧
        getPlan (builtPlanner 5 [] [("k", 1), ("j", 2), ("k", 3)]) (i : Int) = some e.2 ∧
        (builtPlanner 5 [] [("k", 1), ("j", 2), ("k", 3)]).mCache[i]? = some e ∧ e.1 = "k" ∧
        (∀ j x, (builtPlanner 5 [] [("k", 1), ("j", 2), ("k", 3)]).mCache[j]? = some x →
          x.1 = "k" → j ≤ i) ∧
        [("k", 1), ("j", 2), ("k", 3)][[("k", 1), ("j", 2), ("k", 3)].length - 1 - i]? = some e ∧
        [("k", 1), ("j", 2), ("k", 3)][[("k", 1), ("j", 2), ("k", 3)].length - 1 - 2]? =
          some ("k", 1) ∧
        [("k", 1), ("j", 2), ("k", 3)][[("k", 1), ("j", 2), ("k", 3)].length - 1 - 0]? =
          some ("k", 3) ∧
        [("k", 1), ("j", 2), ("k", 3)].length - 1 - i ≤
          [("k", 1), ("j", 2), ("k", 3)].length - 1 - 2 ∧
        [("k", 1), ("j", 2), ("k", 3)].length - 1 - 2 <
          [("k", 1), ("j", 2), ("k", 3)].length - 1 - 0 :=
  ⟨by decide, by decide, by decide, by decide,
    findIfPlanExists_returns_earliest_inserted 5 [] [("k", 1), ("j", 2), ("k", 3)] 0 2
      ("k", 3) ("k", 1) (by decide) (by decide) (by decide) (by decide) rfl⟩

/-! ## Teardown -/

/-- Claim C8, counterexample: destroying a planner that holds the handle 7 (first
destruction, not a Windows build) logs `clfftTeardown` and no
`clfftDestroyPlan(7)`. -/
theorem destruct_makes_no_destroy_call :
    clFFTPlanner.destruct false true
        { planner := { mMaxCacheSize := 5, mCache := [("k", 7)] }, calls := [] } =
      (false, [ExtCall.clfftTeardown]) ∧
    (clFFTPlanner.destruct false true
        { planner := { mMaxCacheSize := 5, mCache := [("k", 7)] }, calls := [] }).2.count
      (ExtCall.clfftDestroyPlan 7) = 0 := by
  decide

/-- Claim C8, amended. Destroying a `clFFTPlanner` makes no `clfftDestroyPlan` call,
whatever handles the cache holds: on a build without `OS_WIN` the first
destruction calls `clfftTeardown` once and clears the flag, so that later
destructions make no call; on a build with `OS_WIN` no call is made. -/
theorem destruct_calls (OS_WIN flag : Bool) (s : Process) :
    (clFFTPlanner.destruct OS_WIN flag s).2 =
        s.calls ++ (if OS_WIN = false ∧ flag = true then [ExtCall.clfftTeardown] else []) ∧
      (clFFTPlanner.destruct OS_WIN flag s).1 = (OS_WIN && flag) ∧
      ((clFFTPlanner.destruct OS_WIN flag s).2.filter ExtCall.isDestroyPlan =
        s.calls.filter ExtCall.isDestroyPlan) := by
  cases OS_WIN <;> cases flag <;> simp [clFFTPlanner.destruct, ExtCall.isDestroyPlan]

/-! ## Decimal numerals -/

theorem digitChar_ne_sep : ∀ d, d < 10 → Nat.digitChar d ≠ ':' ∧ Nat.digitChar d ≠ '-' := by
  decide

theorem digitChar_inj : ∀ d, d < 10 → ∀ e, e < 10 → Nat.digitChar d = Nat.digitChar e → d = e := by
  decide

theorem toDigitsCore_append (fuel : Nat) : ∀ (n : Nat) (ds : List Char),
    Nat.toDigitsCore 10 fuel n ds = Nat.toDigitsCore 10 fuel n [] ++ ds := by
  induction fuel with
  | zero => intro n ds; simp [Nat.toDigitsCore]
  | succ fuel ih =>
    intro n ds
    simp only [Nat.toDigitsCore]
    split_ifs
    · simp
    · rw [ih (n / 10) (Nat.digitChar (n % 10) :: ds), ih (n / 10) [Nat.digitChar (n % 10)]]
      simp

theorem toDigitsCore_succ (fuel n : Nat) :
    Nat.toDigitsCore 10 (fuel + 1) n [] =
      if n / 10 = 0 then [Nat.digitChar (n % 10)]
      else Nat.toDigitsCore 10 fuel (n / 10) [] ++ [Nat.digitChar (n % 10)] := by
  simp only [Nat.toDigitsCore]
  split_ifs
  · rfl
  · exact toDigitsCore_append fuel (n / 10) _

theorem toDigitsCore_ne_nil (fuel n : Nat) : Nat.toDigitsCore 10 (fuel + 1) n [] ≠ [] := by
  rw [toDigitsCore_succ]
  split_ifs <;> simp

theorem toDigitsCore_chars (fuel : Nat) : ∀ (n : Nat) (c : Char),
    c ∈ Nat.toDigitsCore 10 fuel n [] → ∃ d, d < 10 ∧ c = Nat.digitChar d := by
  induction fuel with
  | zero => intro n c h; simp [Nat.toDigitsCore] at h
  | succ fuel ih =>
    intro n c h
    rw [toDigitsCore_succ] at h
    split_ifs at h
    · exact ⟨n % 10, Nat.mod_lt _ (by norm_num), by simpa using h⟩
    · rcases List.mem_append.mp h with h1 | h1
      · exact ih _ _ h1
      · exact ⟨n % 10, Nat.mod_lt _ (by norm_num), by simpa using h1⟩

theorem toDigitsCore_inj (f1 : Nat) : ∀ (f2 n m : Nat), n < f1 → m < f2 →
    Nat.toDigitsCore 10 f1 n [] = Nat.toDigitsCore 10 f2 m [] → n = m := by
  induction f1 with
  | zero => intro f2 n m h; omega
  | succ f1 ih =>
    intro f2 n m hn hm h
    obtain ⟨g2, rfl⟩ : ∃ g, f2 = g + 1 := ⟨f2 - 1, by omega⟩
    rw [toDigitsCore_succ, toDigitsCore_succ] at h
    have hdn := Nat.mod_lt n (show 0 < 10 by norm_num)
    have hdm := Nat.mod_lt m (show 0 < 10 by norm_num)
    by_cases c1 : n / 10 = 0 <;> by_cases c2 : m / 10 = 0
    · rw [if_pos c1, if_pos c2] at h
      have := digitChar_inj _ hdn _ hdm (by simpa using h)
      omega
    · rw [if_pos c1, if_neg c2] at h
      have hl := congrArg List.length h
      obtain ⟨g3, hg3⟩ : ∃ g, g2 = g + 1 := ⟨g2 - 1, by omega⟩
      have hne := toDigitsCore_ne_nil g3 (m / 10)
      rw [← hg3] at hne
      have hpos := List.length_pos.mpr hne
      simp only [List.length_append, List.length_singleton, List.length_cons,
        List.length_nil] at hl
      omega
    · rw [if_neg c1, if_pos c2] at h
      have hl := congrArg List.length h
      obtain ⟨g3, hg3⟩ : ∃ g, f1 = g + 1 := ⟨f1 - 1, by omega⟩
      have hne := toDigitsCore_ne_nil g3 (n / 10)
      rw [← hg3] at hne
      have hpos := List.length_pos.mpr hne
      simp only [List.length_append, List.length_singleton, List.length_cons,
        List.length_nil] at hl
      omega
    · rw [if_neg c1, if_neg c2] at h
      obtain ⟨h1, h2⟩ := List.append_inj' h rfl
      have hq := ih g2 (n / 10) (m / 10) (by omega) (by omega) h1
      have := digitChar_inj _ hdn _ hdm (by simpa using h2)
      omega

theorem toDigits_inj (n m : Nat) (h : Nat.toDigits 10 n = Nat.toDigits 10 m) : n = m :=
  toDigitsCore_inj (n + 1) (m + 1) n m (by omega) (by omega) h

theorem toDigits_chars (n : Nat) (c : Char) (h : c ∈ Nat.toDigits 10 n) :
    c ≠ ':' ∧ c ≠ '-' := by
  obtain ⟨d, hd, rfl⟩ := toDigitsCore_chars _ _ _ h
  exact digitChar_ne_sep d hd

theorem toDigits_ne_nil (n : Nat) : Nat.toDigits 10 n ≠ [] := toDigitsCore_ne_nil n n


/-! ## The key as a list of fields -/

theorem fmtSizeT_data (v : Nat) : (fmtSizeT v).data = Nat.toDigits 10 v := rfl

theorem fmtSizeT_inj (v w : Nat) (h : (fmtSizeT v).data = (fmtSizeT w).data) : v = w :=
  toDigits_inj v w h

theorem fmtSizeT_no_colon (v : Nat) : ':' ∉ (fmtSizeT v).data := by
  intro h
  exact (toDigits_chars v ':' h).1 rfl

theorem fmtInt_data_ofNat (m : Nat) : (fmtInt (Int.ofNat m)).data = Nat.toDigits 10 m := rfl

theorem fmtInt_data_negSucc (m : Nat) :
    (fmtInt (Int.negSucc m)).data = '-' :: Nat.toDigits 10 (m + 1) := rfl

theorem fmtInt_inj (x y : Int) (h : (fmtInt x).data = (fmtInt y).data) : x = y := by
  cases x with
  | ofNat m =>
    cases y with
    | ofNat k =>
      rw [fmtInt_data_ofNat, fmtInt_data_ofNat] at h
      rw [toDigits_inj m k h]
    | negSucc k =>
      rw [fmtInt_data_ofNat, fmtInt_data_negSucc] at h
      have hmem : '-' ∈ Nat.toDigits 10 m := by rw [h]; exact List.mem_cons_self _ _
      exact absurd rfl (toDigits_chars m '-' hmem).2
  | negSucc m =>
    cases y with
    | ofNat k =>
      rw [fmtInt_data_ofNat, fmtInt_data_negSucc] at h
      have hmem : '-' ∈ Nat.toDigits 10 k := by rw [← h]; exact List.mem_cons_self _ _
      exact absurd rfl (toDigits_chars k '-' hmem).2
    | negSucc k =>
      rw [fmtInt_data_negSucc, fmtInt_data_negSucc] at h
      have hk := toDigits_inj _ _ (List.cons.inj h).2
      have hmk : m = k := by omega
      rw [hmk]

theorem fmtInt_no_colon (x : Int) : ':' ∉ (fmtInt x).data := by
  intro h
  cases x with
  | ofNat m =>
    rw [fmtInt_data_ofNat] at h
    exact (toDigits_chars m ':' h).1 rfl
  | negSucc m =>
    rw [fmtInt_data_negSucc] at h
    rcases List.mem_cons.mp h with h1 | h1
    · exact absurd h1 (by decide)
    · exact (toDigits_chars _ ':' h1).1 rfl

theorem withColons_append (fs gs : List (List Char)) :
    withColons (fs ++ gs) = withColons fs ++ withColons gs := by
  induction fs with
  | nil => rfl
  | cons f fs ih => simp [withColons, ih]

theorem foldl_fields_data (vs : List Nat) : ∀ k : String,
    (vs.foldl (fun k v => k ++ (fmtSizeT v ++ ":")) k).data =
      k.data ++ withColons (vs.map (fun v => (fmtSizeT v).data)) := by
  induction vs with
  | nil => intro k; simp [withColons]
  | cons v vs ih =>
    intro k
    rw [List.foldl_cons, ih]
    simp [withColons]

theorem key_string_data (a : PlanArgs) :
    (key_string a).data = withColons (keyFields (planTuple a)) ++ (fmtSizeT a.batch).data := by
  obtain ⟨ai, ao, ar, al, ais, aid, aos, aod, ap, ab⟩ := a
  cases ais <;> cases aos <;>
    simp [key_string, appendFields_eq, foldl_fields_data, keyFields, planTuple, groupFields,
      withColons, withColons_append]


theorem sep_inj (f : List Char) : ∀ (g X Y : List Char), ':' ∉ f → ':' ∉ g →
    f ++ ':' :: X = g ++ ':' :: Y → f = g ∧ X = Y := by
  induction f with
  | nil =>
    intro g X Y _ hg h
    cases g with
    | nil => exact ⟨rfl, (List.cons.inj h).2⟩
    | cons c g =>
      have hc : ':' = c := (List.cons.inj h).1
      exact absurd (by rw [hc]; exact List.mem_cons_self _ _) hg
  | cons c f ih =>
    intro g X Y hf hg h
    cases g with
    | nil =>
      have hc : c = ':' := (List.cons.inj h).1
      exact absurd (by rw [hc]; exact List.mem_cons_self _ _) hf
    | cons d g =>
      obtain ⟨hcd, hrest⟩ := List.cons.inj h
      obtain ⟨h1, h2⟩ := ih g X Y (fun hm => hf (List.mem_cons_of_mem _ hm))
        (fun hm => hg (List.mem_cons_of_mem _ hm)) hrest
      exact ⟨by rw [hcd, h1], h2⟩

theorem withColons_inj (fs : List (List Char)) : ∀ (gs : List (List Char)) (l m : List Char),
    (∀ f ∈ fs, ':' ∉ f) → (∀ g ∈ gs, ':' ∉ g) → ':' ∉ l → ':' ∉ m →
    withColons fs ++ l = withColons gs ++ m → fs = gs ∧ l = m := by
  induction fs with
  | nil =>
    intro gs l m _ _ hl _ h
    cases gs with
    | nil => exact ⟨rfl, h⟩
    | cons g gs =>
      simp only [withColons, List.nil_append, List.append_assoc, List.cons_append] at h
      exact absurd (by rw [h]; simp) hl
  | cons f fs ih =>
    intro gs l m hfs hgs hl hm h
    cases gs with
    | nil =>
      simp only [withColons, List.nil_append, List.append_assoc, List.cons_append] at h
      exact absurd (by rw [← h]; simp) hm
    | cons g gs =>
      simp only [withColons, List.append_assoc, List.cons_append] at h
      obtain ⟨h1, h2⟩ := sep_inj f g _ _ (hfs f (List.mem_cons_self _ _))
        (hgs g (List.mem_cons_self _ _)) h
      obtain ⟨h3, h4⟩ := ih gs l m (fun x hx => hfs x (List.mem_cons_of_mem _ hx))
        (fun x hx => hgs x (List.mem_cons_of_mem _ hx)) hl hm h2
      exact ⟨by rw [h1, h3], h4⟩

theorem keyFields_no_colon (t : PlanTuple) : ∀ f ∈ keyFields t, ':' ∉ f := by
  intro f hf
  simp only [keyFields, List.mem_append, List.mem_cons, List.mem_map, List.mem_singleton,
    List.not_mem_nil, or_false] at hf
  rcases hf with (((h | h | h) | ⟨v, _, h⟩) | ⟨v, _, h⟩) | h
  · rw [h]; exact fmtInt_no_colon _
  · rw [h]; exact fmtInt_no_colon _
  · rw [h]; exact fmtInt_no_colon _
  · rw [← h]; exact fmtSizeT_no_colon _
  · rw [← h]; exact fmtSizeT_no_colon _
  · rw [h]; exact fmtInt_no_colon _

theorem map_fmtSizeT_inj (vs ws : List Nat)
    (h : vs.map (fun v => (fmtSizeT v).data) = ws.map (fun v => (fmtSizeT v).data)) : vs = ws :=
  List.map_injective_iff.mpr (fun v w hvw => fmtSizeT_inj v w hvw) h

theorem firstN_length (rank : Nat) (arr : Nat → Nat) : (firstN rank arr).length = rank := by
  simp [firstN]

/-- Equal keys have equal fields: the plain fields of the tuples agree, and so do the
numbers of the two stride groups taken together. -/
theorem key_string_fields (a b : PlanArgs) (h : key_string a = key_string b) :
    a.iLayout = b.iLayout ∧ a.oLayout = b.oLayout ∧ a.rank = b.rank ∧
      firstN a.rank a.clLengths = firstN b.rank b.clLengths ∧
      groupFields (planTuple a).inGroup ++ groupFields (planTuple a).outGroup =
        groupFields (planTuple b).inGroup ++ groupFields (planTuple b).outGroup ∧
      a.precision = b.precision ∧ a.batch = b.batch := by
  have hd : (key_string a).data = (key_string b).data := by rw [h]
  rw [key_string_data, key_string_data] at hd
  obtain ⟨hf, hlast⟩ := withColons_inj _ _ _ _ (keyFields_no_colon _) (keyFields_no_colon _)
    (fmtSizeT_no_colon _) (fmtSizeT_no_colon _) hd
  have hbatch := fmtSizeT_inj _ _ hlast
  simp only [keyFields, List.cons_append, List.nil_append, List.append_assoc,
    List.cons.injEq] at hf
  obtain ⟨h1, h2, h3, h4⟩ := hf
  have hi := fmtInt_inj _ _ h1
  have ho := fmtInt_inj _ _ h2
  have hr : (planTuple a).rank = (planTuple b).rank := by
    have := fmtInt_inj _ _ h3
    exact_mod_cast this
  have hrank : a.rank = b.rank := hr
  have hlen : ((planTuple a).lengths.map (fun v => (fmtSizeT v).data)).length =
      ((planTuple b).lengths.map (fun v => (fmtSizeT v).data)).length := by
    simp [planTuple, firstN_length, hrank]
  obtain ⟨h5, h6⟩ := List.append_inj h4 hlen
  obtain ⟨h7, h8⟩ := List.append_inj' h6 rfl
  have hp := fmtInt_inj _ _ (List.cons.inj h8).1
  exact ⟨hi, ho, hrank, map_fmtSizeT_inj _ _ h5, map_fmtSizeT_inj _ _ h7, hp, hbatch⟩

theorem group_inj (X Y R S : List Nat) (d e : Nat) (hl : X.length = Y.length)
    (h : X ++ [d] ++ R = Y ++ [e] ++ S) : X = Y ∧ d = e ∧ R = S := by
  simp only [List.append_assoc, List.singleton_append] at h
  obtain ⟨h1, h2⟩ := List.append_inj h hl
  obtain ⟨h3, h4⟩ := List.cons.inj h2
  exact ⟨h1, h3, h4⟩

theorem groups_cases (r : Nat) (p q p2 q2 : Option (List Nat × Nat))
    (hp : ∀ st d, p = some (st, d) → st.length = r)
    (hq : ∀ st d, q = some (st, d) → st.length = r)
    (hp2 : ∀ st d, p2 = some (st, d) → st.length = r)
    (hq2 : ∀ st d, q2 = some (st, d) → st.length = r)
    (h : groupFields p ++ groupFields q = groupFields p2 ++ groupFields q2) :
    (p = p2 ∧ q = q2) ∨ (p.isSome ≠ q.isSome ∧ p2 = q ∧ q2 = p) := by
  have hlen := congrArg List.length h
  rcases p with _ | ⟨sp, dp⟩ <;> rcases q with _ | ⟨sq, dq⟩ <;>
    rcases p2 with _ | ⟨sp2, dp2⟩ <;> rcases q2 with _ | ⟨sq2, dq2⟩ <;>
    simp only [groupFields, List.append_nil, List.nil_append, List.length_append,
      List.length_nil, List.length_cons] at h hlen
  · exact Or.inl ⟨rfl, rfl⟩
  · omega
  · omega
  · omega
  · omega
  · obtain ⟨h1, h2⟩ := List.append_inj' h rfl
    obtain ⟨h3, _⟩ := List.cons.inj h2
    exact Or.inl ⟨rfl, by rw [h1, h3]⟩
  · obtain ⟨h1, h2⟩ := List.append_inj' h rfl
    obtain ⟨h3, _⟩ := List.cons.inj h2
    exact Or.inr ⟨by simp, by rw [h1, h3], rfl⟩
  · have := hq sq dq rfl
    have := hp2 sp2 dp2 rfl
    have := hq2 sq2 dq2 rfl
    omega
  · omega
  · obtain ⟨h1, h2⟩ := List.append_inj' h rfl
    obtain ⟨h3, _⟩ := List.cons.inj h2
    exact Or.inr ⟨by simp, rfl, by rw [h1, h3]⟩
  · obtain ⟨h1, h2⟩ := List.append_inj' h rfl
    obtain ⟨h3, _⟩ := List.cons.inj h2
    exact Or.inl ⟨by rw [h1, h3], rfl⟩
  · have := hp sp dp rfl
    have := hp2 sp2 dp2 rfl
    have := hq2 sq2 dq2 rfl
    omega
  · omega
  · have := hp sp dp rfl
    have := hq sq dq rfl
    have := hq2 sq2 dq2 rfl
    omega
  · have := hp sp dp rfl
    have := hq sq dq rfl
    have := hp2 sp2 dp2 rfl
    omega
  · have e1 := hp sp dp rfl
    have e2 := hp2 sp2 dp2 rfl
    obtain ⟨h1, h2, h3⟩ := group_inj sp sp2 _ _ dp dp2 (by omega) h
    obtain ⟨h4, h5⟩ := List.append_inj' h3 rfl
    obtain ⟨h6, _⟩ := List.cons.inj h5
    exact Or.inl ⟨by rw [h1, h2], by rw [h4, h6]⟩

theorem strideGroup_length (rank : Nat) (strides : Option (Nat → Nat)) (dist : Nat) :
    ∀ st d, strides.map (fun s => (firstN rank s, dist)) = some (st, d) → st.length = rank := by
  intro st d h
  cases strides with
  | none => simp at h
  | some s =>
    simp only [Option.map_some', Option.some.injEq, Prod.mk.injEq] at h
    rw [← h.1, firstN_length]

/-- Equal keys come from equal parameter tuples, or from two tuples of which one has
only one stride group and the other has the same numbers as the other group. -/
theorem key_string_eq_cases (a b : PlanArgs) (h : key_string a = key_string b) :
    planTuple a = planTuple b ∨ groupsSwapped (planTuple a) (planTuple b) := by
  obtain ⟨h1, h2, h3, h4, h5, h6, h7⟩ := key_string_fields a b h
  have hg := groups_cases a.rank (planTuple a).inGroup (planTuple a).outGroup
    (planTuple b).inGroup (planTuple b).outGroup
    (strideGroup_length _ _ _) (strideGroup_length _ _ _)
    (by rw [h3]; exact strideGroup_length _ _ _) (by rw [h3]; exact strideGroup_length _ _ _) h5
  rcases hg with ⟨g1, g2⟩ | ⟨g0, g1, g2⟩
  · exact Or.inl (PlanTuple.ext h1 h2 h3 h4 g1 g2 h6 h7)
  · exact Or.inr ⟨g0, PlanTuple.ext h1.symm h2.symm h3.symm h4.symm g1 g2 h6.symm h7.symm⟩

/-- Claim C1, counterexample: the call with only the input stride group (stride 1,
distance 8) and the call with only the output stride group (stride 1,
distance 8) have different parameter tuples and the same key. -/
theorem key_collision_between_stride_groups :
    planTuple inputGroupOnly ≠ planTuple outputGroupOnly ∧
      key_string inputGroupOnly = "1:1:1:8:1:8:1:1" ∧
      key_string outputGroupOnly = "1:1:1:8:1:8:1:1" := by
  decide

/-- Claim C1, amended. If two calls of `find_clfft_plan` differ in at least one field
of their parameter tuples, then their key strings differ, unless one call
supplies exactly one stride group and the other call supplies the same strides
and distance as the other group with all other fields equal. -/
theorem key_injective_up_to_group_swap (a b : PlanArgs)
    (hne : planTuple a ≠ planTuple b)
    (hswap : ¬ groupsSwapped (planTuple a) (planTuple b)) :
    key_string a ≠ key_string b := by
  intro h
  rcases key_string_eq_cases a b h with h1 | h1
  · exact hne h1
  · exact hswap h1


theorem key_injective_up_to_group_swap_witness :
    planTuple inputGroupOnly ≠ planTuple (sampleArgs 8 0) ∧
      ¬ groupsSwapped (planTuple inputGroupOnly) (planTuple (sampleArgs 8 0)) ∧
      key_string inputGroupOnly ≠ key_string (sampleArgs 8 0) :=
  ⟨by decide, fun h => absurd h.2 (by decide),
    key_injective_up_to_group_swap inputGroupOnly (sampleArgs 8 0) (by decide)
      (fun h => absurd h.2 (by decide))⟩


/-! ## The result of a lookup -/

/-- Claim C12. For every cache state (within the range of the `int` index) and every
key, `findIfPlanExists` returns a value; the value is -1 exactly when no entry
has the key, and otherwise it is the greatest index whose entry has the key,
the last match met when scanning from the front to the back. -/
theorem findIfPlanExists_result (p : clFFTPlanner) (key : String)
    (hlen : p.mCache.length < 2 ^ 31) :
    ∃ r : Int, findIfPlanExists p key = some r ∧
      (r = -1 ↔ ∀ e ∈ p.mCache, e.1 ≠ key) ∧
      ((∃ e ∈ p.mCache, e.1 = key) →
        ∃ i : Nat, r = (i : Int) ∧ (∃ e, p.mCache[i]? = some e ∧ e.1 = key) ∧
          ∀ j e, p.mCache[j]? = some e → e.1 = key → j ≤ i) := by
  by_cases hm : ∃ e ∈ p.mCache, e.1 = key
  · obtain ⟨c1, e, c2, hc, he, hno⟩ := exists_last_match key _ hm
    refine ⟨(c1.length : Int), findIfPlanExists_last_match p key c1 c2 e hc hlen he hno, ?_, ?_⟩
    · constructor
      · intro h
        omega
      · intro h
        obtain ⟨x, hx, hxk⟩ := hm
        exact absurd hxk (h x hx)
    · intro _
      refine ⟨c1.length, rfl, ⟨e, ?_, he⟩, ?_⟩
      · rw [hc, List.getElem?_append_right (le_refl _)]
        simp
      · intro j x hj hx
        by_contra hgt
        rw [hc, List.getElem?_append_right (by omega)] at hj
        obtain ⟨d, hd⟩ : ∃ d, j - c1.length = d + 1 := ⟨j - c1.length - 1, by omega⟩
        rw [hd, List.getElem?_cons_succ] at hj
        exact hno x (List.getElem?_mem hj) hx
  · have hno : ∀ e ∈ p.mCache, e.1 ≠ key := fun e he hk => hm ⟨e, he, hk⟩
    exact ⟨-1, findIfPlanExists_no_match p key (by omega) hno, ⟨fun _ => hno, fun _ => rfl⟩,
      fun h => absurd h hm⟩

theorem findIfPlanExists_result_witness :
    sampleCache.mCache.length < 2 ^ 31 ∧
      ∃ r : Int, findIfPlanExists sampleCache "k" = some r ∧
        (r = -1 ↔ ∀ e ∈ sampleCache.mCache, e.1 ≠ "k") ∧
        ((∃ e ∈ sampleCache.mCache, e.1 = "k") →
          ∃ i : Nat, r = (i : Int) ∧ (∃ e, sampleCache.mCache[i]? = some e ∧ e.1 = "k") ∧
            ∀ j e, sampleCache.mCache[j]? = some e → e.1 = "k" → j ≤ i) :=
  ⟨by decide, findIfPlanExists_result sampleCache "k" (by decide)⟩


/-! ## The layout of the key -/

theorem toDigitsCore_eq_digits (fuel : Nat) : ∀ n : Nat, n < fuel → 0 < n →
    Nat.toDigitsCore 10 fuel n [] = ((Nat.digits 10 n).map Nat.digitChar).reverse := by
  induction fuel with
  | zero => intro n h; omega
  | succ fuel ih =>
    intro n hn hpos
    rw [toDigitsCore_succ, Nat.digits_def' (by norm_num) hpos]
    by_cases c : n / 10 = 0
    · rw [if_pos c, c, Nat.digits_zero]
      rfl
    · rw [if_neg c, ih (n / 10) (by omega) (by omega)]
      simp

theorem toDigits_eq_decimalNat (n : Nat) : Nat.toDigits 10 n = decimalNat n := by
  by_cases h : n = 0
  · subst h
    rfl
  · rw [decimalNat, if_neg h]
    exact toDigitsCore_eq_digits (n + 1) n (by omega) (by omega)

theorem fmtSizeT_eq_decimalNat (v : Nat) : (fmtSizeT v).data = decimalNat v :=
  toDigits_eq_decimalNat v

theorem fmtInt_eq_decimalInt (v : Int) : (fmtInt v).data = decimalInt v := by
  cases v with
  | ofNat m =>
    have h : ¬ Int.ofNat m < 0 := by simp
    rw [fmtInt_data_ofNat, decimalInt, if_neg h, toDigits_eq_decimalNat]
    rfl
  | negSucc m =>
    have h : Int.negSucc m < 0 := Int.negSucc_lt_zero m
    rw [fmtInt_data_negSucc, decimalInt, if_pos h, toDigits_eq_decimalNat]
    rfl

theorem splitAtColons_ne_nil (cs : List Char) : splitAtColons cs ≠ [] := by
  induction cs with
  | nil => simp [splitAtColons]
  | cons c cs ih =>
    rw [splitAtColons]
    split_ifs
    · simp
    · cases h : splitAtColons cs <;> simp

theorem splitAtColons_sep (f : List Char) (rest : List Char) (hf : ':' ∉ f) :
    splitAtColons (f ++ ':' :: rest) = f :: splitAtColons rest := by
  induction f with
  | nil => simp [splitAtColons]
  | cons c f ih =>
    have hc : ¬ c = ':' := fun h => hf (by rw [h]; exact List.mem_cons_self _ _)
    have hf2 : ':' ∉ f := fun h => hf (List.mem_cons_of_mem _ h)
    rw [List.cons_append, splitAtColons, if_neg hc, ih hf2]

theorem splitAtColons_field (f : List Char) (hf : ':' ∉ f) : splitAtColons f = [f] := by
  induction f with
  | nil => rfl
  | cons c f ih =>
    have hc : ¬ c = ':' := fun h => hf (by rw [h]; exact List.mem_cons_self _ _)
    have hf2 : ':' ∉ f := fun h => hf (List.mem_cons_of_mem _ h)
    rw [splitAtColons, if_neg hc, ih hf2]

theorem splitAtColons_withColons (fs : List (List Char)) (last : List Char)
    (hfs : ∀ f ∈ fs, ':' ∉ f) (hl : ':' ∉ last) :
    splitAtColons (withColons fs ++ last) = fs ++ [last] := by
  induction fs with
  | nil => simpa [withColons] using splitAtColons_field last hl
  | cons f fs ih =>
    have h1 := ih (fun x hx => hfs x (List.mem_cons_of_mem _ hx))
    simp only [withColons, List.append_assoc, List.cons_append]
    rw [splitAtColons_sep f _ (hfs f (List.mem_cons_self _ _)), h1]

theorem keyFields_eq_canonicalFields (a : PlanArgs) :
    keyFields (planTuple a) ++ [(fmtSizeT a.batch).data] = canonicalFields a := by
  have hN : (fun v => (fmtSizeT v).data) = decimalNat := funext fmtSizeT_eq_decimalNat
  obtain ⟨ai, ao, ar, al, ais, aid, aos, aod, ap, ab⟩ := a
  cases ais <;> cases aos <;>
    simp [keyFields, canonicalFields, planTuple, groupFields, hN, fmtInt_eq_decimalInt,
      fmtSizeT_eq_decimalNat]

theorem firstN_replaceBeyond (rank : Nat) (arr other : Nat → Nat) :
    firstN rank (replaceBeyond rank arr other) = firstN rank arr := by
  unfold firstN
  apply List.map_congr_left
  intro r hr
  simp [replaceBeyond, List.mem_range.mp hr]

theorem planTuple_changedBeyondRank (a : PlanArgs) (l i o : Nat → Nat) :
    planTuple (changedBeyondRank a l i o) = planTuple a := by
  obtain ⟨ai, ao, ar, al, ais, aid, aos, aod, ap, ab⟩ := a
  cases ais <;> cases aos <;>
    simp [planTuple, changedBeyondRank, firstN_replaceBeyond]

/-- Claim C11. For every argument tuple of `find_clfft_plan`, splitting the key
string at its colons yields exactly the decimal numerals of, in this order:
input layout, output layout, rank, the first `rank` lengths, the first `rank`
input strides and the input distance if and only if input strides are
supplied, the first `rank` output strides and the output distance if and only
if output strides are supplied, precision, batch.  Changing the lengths and
strides at the indices `rank` and beyond does not change the key. -/
theorem key_string_canonical_layout (a : PlanArgs) :
    splitAtColons (key_string a).data = canonicalFields a ∧
      ∀ l i o : Nat → Nat, key_string (changedBeyondRank a l i o) = key_string a := by
  constructor
  · rw [key_string_data, splitAtColons_withColons _ _ (keyFields_no_colon _)
      (fmtSizeT_no_colon _)]
    exact keyFields_eq_canonicalFields a
  · intro l i o
    exact key_string_congr _ _ (planTuple_changedBeyondRank a l i o)

end opencl
